import Mathlib

/-!
Verification of the dependency-aware fixture synthesis engine of
`pg-tables-to-jsonschema` (files `src/generateFakeData.ts` and `src/verify.ts`).

The TypeScript source is shallowly embedded as executable Lean functions:

* JSON-Schema objects (`JSONSchema7` values as used by the scripts) become the
  mutually inductive type `Sch` below.  A JavaScript string-valued field that
  may be absent is modelled as a `String` where `""` stands for "absent"
  (both are falsy in every guard the source uses); `enum`, `items` and
  `properties` keep an explicit "absent" constructor because an empty array or
  object is truthy in JavaScript.
* The random value provider (`faker`) is an oracle parameter `Faker`; the
  database is split into an id-lookup oracle `ExtDB` (for
  `SELECT id FROM ... LIMIT 1 OFFSET i`), a delete-success oracle
  (`String → Bool`) and an insert-success oracle (`String → Value → Bool`).
* The unbounded recursions of the source (the DFS `detectCycle` and the
  schema-tree recursion of `generatePropertyData`) are given an explicit fuel
  parameter so that every definition is structurally recursive and
  kernel-reducible.  `topologicalSort` runs the DFS with fuel
  `titles.length + 1`, which is proved sufficient (the fuel-exhaustion branch
  is unreachable, see `detectCycle_fuel`).
-/

/-! ## JavaScript values -/

/-- A JavaScript value as produced by the fake-data generator.  `vundef`
models `undefined` (e.g. reading a missing property). -/
inductive Value where
  | vundef
  | vnull
  | vstr (s : String)
  | vnum (n : Int)
  | vbool (b : Bool)
  | varr (vs : List Value)
  | vobj (fields : List (String × Value))

/-! ## Schema objects

`Sch` models a `JSONSchema7` object as accessed by the scripts: the fields
`title`, `enum`, `format`, `type`, `items`, `properties`, `foreignTable`,
`isGenerated`.  `items` is either absent, a single schema, or an array of
schemas (`Array.isArray(property.items)` distinguishes the two present
forms).  `properties` is either absent or a key-ordered property map. -/

mutual
inductive Sch where
  | mk (title : String) (enum : Option (List Value)) (format : String)
       (ptype : String) (items : Items) (properties : Props)
       (foreignTable : String) (isGenerated : Bool)

inductive Items where
  | noItems
  | one (s : Sch)
  | many (ss : SchList)

inductive SchList where
  | nil
  | cons (s : Sch) (ss : SchList)

inductive Props where
  | noProps
  | props (ps : PropList)

inductive PropList where
  | nil
  | cons (k : String) (p : Sch) (ps : PropList)
end

def Sch.title : Sch → String
  | .mk t _ _ _ _ _ _ _ => t

def Sch.enum : Sch → Option (List Value)
  | .mk _ e _ _ _ _ _ _ => e

def Sch.format : Sch → String
  | .mk _ _ f _ _ _ _ _ => f

def Sch.ptype : Sch → String
  | .mk _ _ _ ty _ _ _ _ => ty

def Sch.items : Sch → Items
  | .mk _ _ _ _ it _ _ _ => it

def Sch.properties : Sch → Props
  | .mk _ _ _ _ _ pr _ _ => pr

def Sch.foreignTable : Sch → String
  | .mk _ _ _ _ _ _ ft _ => ft

def Sch.isGenerated : Sch → Bool
  | .mk _ _ _ _ _ _ _ g => g

/-! ## Generic JavaScript-object helpers -/

/-- First-occurrence key lookup in an insertion-ordered object,
`m[k]` returning `undefined` as `none`. -/
def jsGet {α : Type} (m : List (String × α)) (k : String) : Option α :=
  match m with
  | [] => none
  | (k2, v) :: rest => if k2 = k then some v else jsGet rest k

/-- `m[k] = v` on an insertion-ordered object: overwrite in place if the key
exists, else append. -/
def jsSet {α : Type} (m : List (String × α)) (k : String) (v : α) :
    List (String × α) :=
  match m with
  | [] => [(k, v)]
  | (k2, w) :: rest => if k2 = k then (k, v) :: rest else (k2, w) :: jsSet rest k v

/-- The key list of a JavaScript object built by successive assignments
(`Object.keys` order: first-assignment order, duplicates collapsed),
and equally the element list of a JavaScript `Set` built by successive
`add`s.  `seen` accumulates the keys already emitted. -/
def objectKeysAux (seen : List String) : List String → List String
  | [] => []
  | t :: ts =>
      if t ∈ seen then objectKeysAux seen ts
      else t :: objectKeysAux (t :: seen) ts

def objectKeys (l : List String) : List String := objectKeysAux [] l

/-- Reading `row.id` from a row value (`undefined` when absent). -/
def jsGetId (v : Value) : Value :=
  match v with
  | .vobj fs => match jsGet fs "id" with | some x => x | none => .vundef
  | _ => (.vundef)


/-! ## `findForeignTables` (generateFakeData.ts lines 257-299)

`traverseProperties` visits every property: records `property.foreignTable`
when truthy, recurses into `property.properties`, and inspects
`property.items` (for an items array: each item's `properties` and
`foreignTable`; for a single items schema: its `properties` and
`foreignTable`).  The `Set` of collected names is modelled by collecting in
visit order and deduplicating with `objectKeys`. -/

mutual
def collectP : PropList → List String
  | .nil => []
  | .cons _ p rest =>
      (match p with
       | .mk _ _ _ _ _ _ ft _ => if ft ≠ "" then [ft] else [])
      ++ (match p with
          | .mk _ _ _ _ _ (.props ps) _ _ => collectP ps
          | _ => [])
      ++ (match p with
          | .mk _ _ _ _ (.many ss) _ _ _ => collectL ss
          | .mk _ _ _ _ (.one it) _ _ _ =>
              (match it with
               | .mk _ _ _ _ _ (.props ps) _ _ => collectP ps
               | _ => [])
              ++ (match it with
                  | .mk _ _ _ _ _ _ ft _ => if ft ≠ "" then [ft] else [])
          | _ => [])
      ++ collectP rest

def collectL : SchList → List String
  | .nil => []
  | .cons it rest =>
      (match it with
       | .mk _ _ _ _ _ (.props ps) _ _ => collectP ps
       | _ => [])
      ++ (match it with
          | .mk _ _ _ _ _ _ ft _ => if ft ≠ "" then [ft] else [])
      ++ collectL rest
end

def findForeignTables (schema : Sch) : List String :=
  objectKeys
    (match schema with
     | .mk _ _ _ _ _ (.props ps) _ _ => collectP ps
     | _ => [])

/-! ## `topologicalSort` (generateFakeData.ts lines 302-366)

The graph: for each schema `B` and each `foreignTable` name `A` found in `B`
with `schemasMap[A]` present, an edge `A → B` is added
(`adjList.get(A).add(B.title)`).  The `inDegree` map of the source is dead
code (never read) and is not modelled. -/

def titlesOf (schemas : List Sch) : List String := schemas.map Sch.title

/-- `adjList.get(a)`: the titles (in insertion order, deduplicated by the
`Set`) of the schemas whose `findForeignTables` contains `a` — provided `a`
itself is a key of `schemasMap`, else the node is absent (`[]`). -/
def adjOf (schemas : List Sch) (a : String) : List String :=
  if a ∈ titlesOf schemas then
    objectKeys ((schemas.filter (fun sc => a ∈ findForeignTables sc)).map Sch.title)
  else []

/-- The mutable traversal state of `topologicalSort`: the `visited` and
`onStack` sets and the finish-order `stack`. -/
structure DfsState where
  visited : List String
  onStack : List String
  stack : List String

/-- The `for (const neighbor of neighbors)` loop of `detectCycle`: run `f` on
each node in turn, returning `true` (and stopping) as soon as one call does. -/
def dfsRun (f : String → DfsState → Option (Bool × DfsState)) :
    List String → DfsState → Option (Bool × DfsState)
  | [], s => some (false, s)
  | b :: bs, s =>
      match f b s with
      | none => none
      | some (true, s2) => some (true, s2)
      | some (false, s2) => dfsRun f bs s2

/-- `detectCycle(node)`: returns `true` on meeting an on-stack node, skips
visited nodes, otherwise marks the node visited and on-stack, recurses into
its neighbours, and on success pops it off the stack set and pushes it onto
the finish stack.  `none` is fuel exhaustion (unreachable for the fuel used
by `topologicalSort`, see `detectCycle_fuel`). -/
def detectCycle (adj : String → List String) :
    Nat → String → DfsState → Option (Bool × DfsState)
  | 0, _, _ => none
  | fuel+1, node, s =>
      if node ∈ s.onStack then some (true, s)
      else if node ∈ s.visited then some (false, s)
      else
        match dfsRun (detectCycle adj fuel) (adj node)
            { s with visited := node :: s.visited, onStack := node :: s.onStack } with
        | none => none
        | some (true, s2) => some (true, s2)
        | some (false, s2) =>
            some (false, { s2 with onStack := s2.onStack.erase node,
                                   stack := s2.stack ++ [node] })

/-- The message of the error thrown when `detectCycle(node)` returns true. -/
def cycleMsg (node : String) : String :=
  "Cycle detected involving node: " ++ node

/-- `Object.keys(schemasMap).forEach(...)`: run `detectCycle` from every not
yet visited key, throwing on a detected cycle; finally return
`stack.reverse()`. -/
def topoLoop (adj : String → List String) (fuel : Nat) :
    List String → DfsState → Except String (List String)
  | [], s => Except.ok s.stack.reverse
  | k :: ks, s =>
      if k ∈ s.visited then topoLoop adj fuel ks s
      else
        match detectCycle adj fuel k s with
        | none => Except.error "model: out of fuel"
        | some (true, _) => Except.error (cycleMsg k)
        | some (false, s2) => topoLoop adj fuel ks s2

def topologicalSort (schemas : List Sch) : Except String (List String) :=
  topoLoop (adjOf schemas) ((titlesOf schemas).length + 1)
    (objectKeys (titlesOf schemas)) ⟨[], [], []⟩

/-! ## The database-facing oracles -/

/-- Result of `SELECT id FROM t`: the full ordered id column, or a query
error. -/
inductive QueryResult where
  | ok (ids : List Value)
  | err

/-- The external database, as seen through id queries: for each table name,
its ordered id column (assumed stable across queries) or an error. -/
def ExtDB : Type := String → QueryResult

/-- The scalar fake-data provider (`faker`), as a pure oracle. -/
structure Faker where
  pick : List Value → Value
  uuid : String
  dateRecent : String
  word : String
  number : Int
  jsbool : Bool

/-! ## `fetchDataFromTable` (generateFakeData.ts lines 44-53)

`SELECT id FROM ${tableName} LIMIT 1 OFFSET $1` returns the row at offset
`index` (as an object with one column `id`) when it exists and no row
otherwise; a query error is caught and yields `[]`. -/

def fetchDataFromTable (db : ExtDB) (tableName : String) (index : Nat) :
    List Value :=
  match db tableName with
  | .err => []
  | .ok ids => ((ids.drop index).take 1).map (fun v => Value.vobj [("id", v)])

/-! ## Row synthesis (generateFakeData.ts lines 56-127)

`generateFakeData` and `generatePropertyData` are mutually recursive over the
schema tree; the nesting depth is the fuel.  The `for (key in properties)`
loop of `generateFakeData` is `genPropsAux`, parameterised by the
already-fuelled property generator `gp`, so that every function is
structurally recursive. -/

/-- The fixture store `fakeDataMap`: table title → generated rows. -/
abbrev Store : Type := List (String × List Value)

/-- One iteration of `generateFakeData`'s property loop: skip `isGenerated`
properties; resolve a truthy `foreignTable` either against `auth.users`
through `fetchDataFromTable` (field omitted when no row comes back) or
against `fakeDataMap[foreignTable]` picking record `index % length` (field
omitted when the entry is missing or empty); otherwise
`data[key] = generatePropertyData(property)`. -/
def genPropsAux (gp : Sch → Value) (db : ExtDB) (fdm : Store) (index : Nat) :
    PropList → List (String × Value)
  | .nil => []
  | .cons key p rest =>
      match p with
      | .mk _ _ _ _ _ _ ft isGen =>
        if isGen then genPropsAux gp db fdm index rest
        else if ft ≠ "" then
          (if ft = "auth.users" then
            match fetchDataFromTable db "auth.users" index with
            | [] => genPropsAux gp db fdm index rest
            | r :: _ => (key, jsGetId r) :: genPropsAux gp db fdm index rest
          else
            match jsGet fdm ft with
            | some rows =>
                if rows.length > 0 then
                  (key, jsGetId (rows.getD (index % rows.length) .vundef)) ::
                    genPropsAux gp db fdm index rest
                else genPropsAux gp db fdm index rest
            | none => genPropsAux gp db fdm index rest)
        else (key, gp p) :: genPropsAux gp db fdm index rest

/-- JavaScript truthiness of `property.items`: any present items value. -/
def Items.present : Items → Bool
  | .noItems => false
  | _ => true

/-- JavaScript truthiness of `property.properties`. -/
def Props.present : Props → Bool
  | .noProps => false
  | _ => true

/-- The schema used when the source casts an items *array* to a single
schema (`property.items as JSONSchema7`): an object none of whose schema
fields is set. -/
def castItemsSchema : Items → Sch
  | .one s => s
  | .many _ => .mk "" none "" "" .noItems .noProps "" false
  | .noItems => .mk "" none "" "" .noItems .noProps "" false

/-- `generatePropertyData` (lines 56-86): enum, uuid, date-time, the four
scalar types, arrays (five elements from the items schema), objects (a
recursive `generateFakeData(property)` call, inlined here so the recursion is
fuelled), and the final `null` fallback. -/
def generatePropertyData (fk : Faker) (db : ExtDB) (fdm : Store) :
    Nat → Nat → Sch → Value
  | 0, _, _ => .vundef
  | fuel+1, index, p =>
      match p with
      | .mk title enum format ptype items properties _ _ =>
        if enum.isSome then fk.pick (enum.getD [])
        else if format = "uuid" then .vstr fk.uuid
        else if format = "date-time" then .vstr fk.dateRecent
        else if ptype = "string" then .vstr fk.word
        else if ptype = "number" then .vnum fk.number
        else if ptype = "integer" then .vnum fk.number
        else if ptype = "boolean" then .vbool fk.jsbool
        else if ptype = "array" ∧ items.present then
          .varr ((List.range 5).map fun _ =>
            generatePropertyData fk db fdm fuel index (castItemsSchema items))
        else if ptype = "object" ∧ properties.present then
          -- generateFakeData(property, fakeDataMap, client, index), inlined
          (if title.startsWith "auth." then .vnull
           else match properties with
            | .noProps => .vobj []
            | .props ps =>
                .vobj (genPropsAux (generatePropertyData fk db fdm fuel index)
                         db fdm index ps))
        else .vnull

/-- `generateFakeData` (lines 89-127): `null` for protected (`auth.`-titled)
schemas, otherwise the object built by the property loop. -/
def generateFakeData (fk : Faker) (db : ExtDB) (fuel : Nat) (schema : Sch)
    (fdm : Store) (index : Nat) : Value :=
  if schema.title.startsWith "auth." then .vnull
  else match schema with
  | .mk _ _ _ _ _ .noProps _ _ => .vobj []
  | .mk _ _ _ _ _ (.props ps) _ _ =>
      .vobj (genPropsAux (generatePropertyData fk db fdm fuel index) db fdm index ps)

/-! ## `cleanDatabase` (generateFakeData.ts lines 30-41)

`DELETE FROM t` for every table not starting with `auth.` and not ending in
`api_auth`, in the given order; the whole loop sits in one `try`, so the
first failing delete aborts the remaining iterations, is logged, and the
function returns normally.  Result: the successfully purged tables in order,
and whether an error was caught. -/

/-- `!tableName.startsWith('auth.') && !tableName.endsWith('api_auth')`:
the guard shared by `cleanDatabase` and `main`'s generation loop. -/
def purgeEligible (t : String) : Bool :=
  !(t.startsWith "auth.") && !(t.endsWith "api_auth")

def cleanDatabase (delOk : String → Bool) : List String → List String × Bool
  | [] => ([], false)
  | t :: ts =>
      if purgeEligible t then
        if delOk t then
          ((cleanDatabase delOk ts).1.cons t, (cleanDatabase delOk ts).2)
        else ([], true)
      else cleanDatabase delOk ts

/-! ## `insertFakeData`

generateFakeData.ts lines 130-177: each single `INSERT` sits in its own
`try`/`catch`, so a failure is logged and the loops continue.  The result
records every attempted insert `(table, row, succeeded)` in order.
The value serialisation (array/object conversion, lines 139-153) only
reshapes the transmitted value and is not modelled. -/

def insertFakeData (insOk : String → Value → Bool) : Store →
    List (String × Value × Bool)
  | [] => []
  | (t, rows) :: rest =>
      (rows.map fun r => (t, r, insOk t r)) ++ insertFakeData insOk rest

/-- `Object.keys(data)` of a row value: the column list of its INSERT
statement. -/
def insertColumns (row : Value) : List String :=
  match row with
  | .vobj fs => fs.map Prod.fst
  | _ => []

/-! verify.ts lines 125-147: the same double loop, but with a single
`try`/`catch` around everything, so the first failing insert aborts all
remaining records and tables. -/

def insertRowsVerify (insOk : String → Value → Bool) (t : String) :
    List Value → List (String × Value) × Bool
  | [] => ([], false)
  | r :: rs =>
      if insOk t r then
        (((insertRowsVerify insOk t rs).1).cons (t, r), (insertRowsVerify insOk t rs).2)
      else ([(t, r)], true)

def insertFakeDataVerify (insOk : String → Value → Bool) : Store →
    List (String × Value) × Bool
  | [] => ([], false)
  | (t, rows) :: rest =>
      if (insertRowsVerify insOk t rows).2 then
        ((insertRowsVerify insOk t rows).1, true)
      else
        ((insertRowsVerify insOk t rows).1 ++ (insertFakeDataVerify insOk rest).1,
         (insertFakeDataVerify insOk rest).2)

/-! ## `main` (generateFakeData.ts lines 369-404)

`main` converts the schemas, annotates them (`addForeignTableSchema` only
adds a `foreignTableSchema` field that no modelled component ever reads, so
it is not modelled), sorts them — a thrown cycle error rejects the whole run
here — then cleans the database, generates five rows per non-protected table
in sorted order (each batch synthesised against the store built so far and
installed under the table's title), and finally inserts everything. -/

def populateLoop (fk : Faker) (db : ExtDB) (fuel : Nat) (schemas : List Sch) :
    List String → Store → Store
  | [], fdm => fdm
  | t :: ts, fdm =>
      match schemas.find? (fun sc => sc.title = t) with
      | none => populateLoop fk db fuel schemas ts fdm
      | some sc =>
          if purgeEligible sc.title then
            populateLoop fk db fuel schemas ts
              (jsSet fdm t ((List.range 5).map
                (fun i => generateFakeData fk db fuel sc fdm i)))
          else populateLoop fk db fuel schemas ts fdm

/-- Everything one successful run produces, in program order: the sorted
table list, the purge outcome, the fixture store, and the attempted
inserts. -/
structure RunResult where
  order : List String
  purged : List String
  purgeErr : Bool
  fixtures : Store
  inserts : List (String × Value × Bool)

def mainModel (fk : Faker) (db : ExtDB) (delOk : String → Bool)
    (insOk : String → Value → Bool) (fuel : Nat) (schemas : List Sch) :
    Except String RunResult :=
  match topologicalSort schemas with
  | .error e => .error e
  | .ok sorted =>
      .ok ⟨sorted, (cleanDatabase delOk sorted).1, (cleanDatabase delOk sorted).2,
           populateLoop fk db fuel schemas sorted [],
           insertFakeData insOk (populateLoop fk db fuel schemas sorted [])⟩

/-! ## Derived notions used in the claims -/

/-- The dependency-graph edge relation derived by the source: `edgeRel s a b`
iff `b`'s schema contains (at any depth reached by `findForeignTables`) a
foreign reference to `a`, and `a` is itself a known table.  Equivalently
`b ∈ adjOf s a` (see `edgeRel_iff`). -/
def edgeRel (schemas : List Sch) (a b : String) : Prop :=
  b ∈ adjOf schemas a

/-- Bool-valued edge-path checker: `chainB adj x l` holds when `x :: l` is a
path following graph edges. -/
def chainB (adj : String → List String) : String → List String → Bool
  | _, [] => true
  | x, y :: ys => decide (y ∈ adj x) && chainB adj y ys

/-- The derived dependency graph contains a (non-empty) cycle. -/
def GraphCyclic (adj : String → List String) : Prop :=
  ∃ a l, chainB adj a (l ++ [a]) = true

/-- `x` occurs strictly before `y` in `l`. -/
def SplitBefore (l : List String) (x y : String) : Prop :=
  ∃ l1 l2 l3, l = l1 ++ x :: (l2 ++ y :: l3)

/-! ## Concrete instances used by witnesses and counterexamples -/

/-- A property carrying only a foreign reference. -/
def fkProp (t : String) : Sch := .mk "" none "" "" .noItems .noProps t false

/-- A plain string property. -/
def strProp : Sch := .mk "" none "" "string" .noItems .noProps "" false

/-- A property matching no generation variant at all. -/
def blankProp : Sch := .mk "" none "" "" .noItems .noProps "" false

/-- Table `A` with one scalar column. -/
def schA : Sch := .mk "A" none "" "" .noItems (.props (.cons "x" strProp .nil)) "" false

/-- Table `B` referencing `A`. -/
def schB : Sch := .mk "B" none "" "" .noItems (.props (.cons "a_id" (fkProp "A") .nil)) "" false

/-- Table `A2` referencing both `B2` and `C0`. -/
def schA2 : Sch := .mk "A" none "" "" .noItems
  (.props (.cons "b_id" (fkProp "B") (.cons "c_id" (fkProp "C") .nil))) "" false

/-- Table `B2` referencing `A`. -/
def schB2 : Sch := .mk "B" none "" "" .noItems (.props (.cons "a_id" (fkProp "A") .nil)) "" false

/-- Table `C0` with no references. -/
def schC0 : Sch := .mk "C" none "" "" .noItems (.props (.cons "x" strProp .nil)) "" false

/-- Acyclic pair: `B` depends on `A`. -/
def exDag : List Sch := [schA, schB]

/-- Two-node cycle: `A` and `B` reference each other. -/
def exCyc2 : List Sch := [.mk "A" none "" "" .noItems (.props (.cons "b_id" (fkProp "B") .nil)) "" false, schB2]

/-- Three tables: `C` clean, the cycle `A → B → A` reachable from `C`
(schema `A` references `C` and `B`; schema `B` references `A`). -/
def exCyc3 : List Sch := [schC0, schA2, schB2]

/-- A trivial faker oracle. -/
def fkDefault : Faker := ⟨fun _ => .vnull, "u", "d", "w", 0, false⟩

/-- An external database where every query errors. -/
def dbErr : ExtDB := fun _ => .err

/-- Table `T` with a single foreign reference to table `A`. -/
def schT : Sch := .mk "T" none "" "" .noItems (.props (.cons "a_id" (fkProp "A") .nil)) "" false

/-- Three already-generated rows for table `A`. -/
def rowsA : List Value :=
  [.vobj [("id", .vstr "id0")], .vobj [("id", .vstr "id1")], .vobj [("id", .vstr "id2")]]

/-- Table `Cc` referencing the protected table `auth.users`. -/
def schC : Sch :=
  .mk "Cc" none "" "" .noItems (.props (.cons "user_id" (fkProp "auth.users") .nil)) "" false

/-- An external database where `auth.users` has exactly one row `u0`. -/
def dbUsers1 : ExtDB := fun t => if t = "auth.users" then .ok [.vstr "u0"] else .err

/-- Table `W` with a property matching no generation variant. -/
def schW : Sch := .mk "W" none "" "" .noItems (.props (.cons "weird" blankProp .nil)) "" false

/-- Two rows distinguished by their single column name. -/
def rowX : Value := .vobj [("x", .vnull)]

def rowY : Value := .vobj [("y", .vnull)]

/-- An insert oracle that rejects exactly the rows whose first column is `x`. -/
def insFailX : String → Value → Bool :=
  fun _ r => match r with | .vobj (("x", _) :: _) => false | _ => true

/-- A delete oracle that fails exactly on the table `Tf`. -/
def delOkW : String → Bool := fun x => !(x == "Tf")

/-! ## Verification-layer definitions -/

/-- Flattening a property map to an ordinary association list. -/
def PropList.toList : PropList → List (String × Sch)
  | .nil => []
  | .cons k p ps => (k, p) :: PropList.toList ps

/-- Reading field `k` of a synthesized row value. -/
def rowLookup (v : Value) (k : String) : Option Value :=
  match v with
  | .vobj fs => jsGet fs k
  | _ => none

/-- The outcome of `generateFakeData`'s property loop for a single property:
`none` when the field is skipped or omitted, `some v` when the row binds it
to `v`.  This mirrors one iteration of `genPropsAux`
(see `genPropsAux_lookup`). -/
def fieldOutcome (gp : Sch → Value) (db : ExtDB) (fdm : Store) (index : Nat)
    (p : Sch) : Option Value :=
  match p with
  | .mk _ _ _ _ _ _ ft isGen =>
    if isGen then none
    else if ft ≠ "" then
      (if ft = "auth.users" then
        match fetchDataFromTable db "auth.users" index with
        | [] => none
        | r :: _ => some (jsGetId r)
      else
        match jsGet fdm ft with
        | some rows =>
            if rows.length > 0 then
              some (jsGetId (rows.getD (index % rows.length) .vundef))
            else none
        | none => none)
    else some (gp p)

/-- Every record of every table of a store, in iteration order. -/
def allAttempts : Store → List (String × Value)
  | [] => []
  | (t, rows) :: rest => (rows.map fun r => (t, r)) ++ allAttempts rest

/-- A finish stack is orderly when every out-neighbour of a finished node
finished strictly earlier. -/
def Orderly (adj : String → List String) (st : List String) : Prop :=
  ∀ a ∈ st, ∀ b ∈ adj a, SplitBefore st b a

/-- The invariant of the DFS state: `visited` is partitioned into the
current recursion path and the finished stack; the stack has no duplicates
and is orderly. -/
structure DfsInv (adj : String → List String) (s : DfsState) : Prop where
  part : ∀ x, x ∈ s.visited ↔ x ∈ s.onStack ∨ x ∈ s.stack
  nodup : s.stack.Nodup
  disj : ∀ x ∈ s.stack, x ∉ s.onStack
  orderly : Orderly adj s.stack

/-- The number of graph nodes not yet visited — the quantity the DFS fuel
has to dominate. -/
def unvisCount (T : List String) (s : DfsState) : Nat :=
  (T.filter (fun x => decide (x ∉ s.visited))).length

/-- Position of the first occurrence of `x` in a list. -/
def idxIn (x : String) : List String → Nat
  | [] => 0
  | y :: ys => if y = x then 0 else idxIn x ys + 1

/-- The recursion-path property of `onStack` (most recent first): every
element is an out-neighbour of the element below it. -/
def chainUp (adj : String → List String) : List String → Bool
  | [] => true
  | [_] => true
  | a :: b :: rest => decide (a ∈ adj b) && chainUp adj (b :: rest)

/-! # Lemmas -/

/-! ## `objectKeys` and `jsGet` -/

theorem mem_objectKeysAux (x : String) :
    ∀ (l seen : List String), x ∈ objectKeysAux seen l ↔ x ∈ l ∧ x ∉ seen := by
  intro l
  induction l with
  | nil => intro seen; simp [objectKeysAux]
  | cons t ts ih =>
      intro seen
      by_cases ht : t ∈ seen
      · rw [objectKeysAux, if_pos ht, ih]
        constructor
        · rintro ⟨hx, hs⟩; exact ⟨List.mem_cons_of_mem _ hx, hs⟩
        · rintro ⟨hx, hs⟩
          rcases List.mem_cons.mp hx with rfl | hx
          · exact absurd ht hs
          · exact ⟨hx, hs⟩
      · rw [objectKeysAux, if_neg ht]
        constructor
        · intro hx
          rcases List.mem_cons.mp hx with rfl | hx
          · exact ⟨List.mem_cons_self _ _, ht⟩
          · rcases (ih (t :: seen)).mp hx with ⟨hts, hns⟩
            exact ⟨List.mem_cons_of_mem _ hts,
              fun hc => hns (List.mem_cons_of_mem _ hc)⟩
        · rintro ⟨hx, hs⟩
          rcases List.mem_cons.mp hx with rfl | hx
          · exact List.mem_cons_self _ _
          · by_cases hxt : x = t
            · subst hxt; exact List.mem_cons_self _ _
            · refine List.mem_cons_of_mem _ ((ih (t :: seen)).mpr ⟨hx, ?_⟩)
              intro hc
              rcases List.mem_cons.mp hc with h | h
              · exact hxt h
              · exact hs h

theorem mem_objectKeys (x : String) (l : List String) :
    x ∈ objectKeys l ↔ x ∈ l := by
  simp [objectKeys, mem_objectKeysAux]

theorem jsGet_some_mem {α : Type} (m : List (String × α)) (k : String) (v : α)
    (h : jsGet m k = some v) : k ∈ m.map Prod.fst := by
  induction m with
  | nil => simp [jsGet] at h
  | cons kv rest ih =>
      obtain ⟨k2, w⟩ := kv
      by_cases hk : k2 = k
      · subst hk; simp
      · simp only [jsGet, if_neg hk] at h
        simpa using Or.inr (ih h)

theorem jsGet_cons_self {α : Type} (k : String) (v : α) (m : List (String × α)) :
    jsGet ((k, v) :: m) k = some v := by
  simp [jsGet]

theorem jsGet_cons_ne {α : Type} (k k2 : String) (v : α) (m : List (String × α))
    (h : k2 ≠ k) : jsGet ((k2, v) :: m) k = jsGet m k := by
  simp [jsGet, h]

/-! ## `edgeRel` and `adjOf` -/

theorem adjOf_mem_titles {schemas : List Sch} {a b : String}
    (h : b ∈ adjOf schemas a) : a ∈ titlesOf schemas := by
  by_contra ha
  rw [adjOf, if_neg ha] at h
  exact absurd h (List.not_mem_nil b)

theorem adjOf_subset_titles {schemas : List Sch} {a b : String}
    (h : b ∈ adjOf schemas a) : b ∈ titlesOf schemas := by
  have ha := adjOf_mem_titles h
  rw [adjOf, if_pos ha, mem_objectKeys] at h
  rcases List.mem_map.mp h with ⟨sc, hsc, rfl⟩
  exact List.mem_map.mpr ⟨sc, (List.mem_filter.mp hsc).1, rfl⟩

theorem edgeRel_iff (schemas : List Sch) (a b : String) :
    edgeRel schemas a b ↔
      a ∈ titlesOf schemas ∧ ∃ sc ∈ schemas, sc.title = b ∧ a ∈ findForeignTables sc := by
  constructor
  · intro h
    have ha := adjOf_mem_titles h
    refine ⟨ha, ?_⟩
    unfold edgeRel at h
    rw [adjOf, if_pos ha, mem_objectKeys] at h
    rcases List.mem_map.mp h with ⟨sc, hsc, rfl⟩
    rcases List.mem_filter.mp hsc with ⟨hmem, hft⟩
    exact ⟨sc, hmem, rfl, by simpa using hft⟩
  · rintro ⟨ha, sc, hsc, rfl, hft⟩
    unfold edgeRel
    rw [adjOf, if_pos ha, mem_objectKeys]
    exact List.mem_map.mpr ⟨sc, List.mem_filter.mpr ⟨hsc, by simpa using hft⟩, rfl⟩

/-! ## `SplitBefore` and positions -/

theorem SplitBefore.mem_left {l : List String} {x y : String}
    (h : SplitBefore l x y) : x ∈ l := by
  rcases h with ⟨l1, l2, l3, rfl⟩
  simp

theorem SplitBefore.mem_right {l : List String} {x y : String}
    (h : SplitBefore l x y) : y ∈ l := by
  rcases h with ⟨l1, l2, l3, rfl⟩
  simp

theorem splitBefore_append_right {l : List String} (m : List String) {x y : String}
    (h : SplitBefore l x y) : SplitBefore (l ++ m) x y := by
  rcases h with ⟨l1, l2, l3, rfl⟩
  exact ⟨l1, l2, l3 ++ m, by simp⟩

theorem splitBefore_push {l : List String} {b : String} (n : String)
    (hb : b ∈ l) : SplitBefore (l ++ [n]) b n := by
  rcases List.append_of_mem hb with ⟨l1, l2, rfl⟩
  exact ⟨l1, l2, [], by simp⟩

theorem splitBefore_reverse {l : List String} {x y : String}
    (h : SplitBefore l x y) : SplitBefore l.reverse y x := by
  rcases h with ⟨l1, l2, l3, rfl⟩
  refine ⟨l3.reverse, l2.reverse, l1.reverse, ?_⟩
  simp

theorem idxIn_append_of_not_mem {x : String} :
    ∀ {l1 : List String} (l2 : List String), x ∉ l1 →
      idxIn x (l1 ++ l2) = l1.length + idxIn x l2 := by
  intro l1
  induction l1 with
  | nil => intro l2 _; simp
  | cons y ys ih =>
      intro l2 hx
      have hyx : y ≠ x := fun h => hx (by simp [h])
      have hx2 : x ∉ ys := fun h => hx (List.mem_cons_of_mem _ h)
      have h1 := ih l2 hx2
      simp only [List.cons_append, idxIn, if_neg hyx, List.length_cons,
        List.append_eq] at h1 ⊢
      omega

theorem idxIn_cons_self (x : String) (l : List String) :
    idxIn x (x :: l) = 0 := by
  simp [idxIn]

theorem splitBefore_idx_lt {l : List String} {x y : String}
    (hnd : l.Nodup) (h : SplitBefore l x y) : idxIn x l < idxIn y l := by
  rcases h with ⟨l1, l2, l3, rfl⟩
  have hx1 : x ∉ l1 := by
    have hd := List.disjoint_of_nodup_append hnd
    intro hc; exact hd hc (by simp)
  have hassoc : l1 ++ x :: (l2 ++ y :: l3) = (l1 ++ x :: l2) ++ y :: l3 := by simp
  have hy1 : y ∉ l1 ++ x :: l2 := by
    rw [hassoc] at hnd
    have hd := List.disjoint_of_nodup_append hnd
    intro hc; exact hd hc (by simp)
  have hxv : idxIn x (l1 ++ x :: (l2 ++ y :: l3)) = l1.length := by
    rw [idxIn_append_of_not_mem _ hx1, idxIn_cons_self]
    omega
  have hyv : idxIn y ((l1 ++ x :: l2) ++ y :: l3) = (l1 ++ x :: l2).length := by
    rw [idxIn_append_of_not_mem _ hy1, idxIn_cons_self]
    omega
  rw [hxv, hassoc, hyv]
  simp only [List.length_append, List.length_cons]
  omega

/-! ## Orderly stacks exclude cycles -/

theorem chain_descend {adj : String → List String} {st : List String}
    (hnd : st.Nodup) (hord : Orderly adj st) :
    ∀ (l : List String) (x y : String), chainB adj x (l ++ [y]) = true → x ∈ st →
      y ∈ st ∧ idxIn y st < idxIn x st := by
  intro l
  induction l with
  | nil =>
      intro x y hch hx
      simp only [List.nil_append, chainB, Bool.and_eq_true, decide_eq_true_eq] at hch
      have hsb := hord x hx y hch.1
      exact ⟨hsb.mem_left, splitBefore_idx_lt hnd hsb⟩
  | cons z l ih =>
      intro x y hch hx
      simp only [List.cons_append, chainB, Bool.and_eq_true, decide_eq_true_eq] at hch
      have hsb := hord x hx z hch.1
      have hz : z ∈ st := hsb.mem_left
      have hlt := splitBefore_idx_lt hnd hsb
      have hch2 : chainB adj z (l ++ [y]) = true := hch.2
      rcases ih z y hch2 hz with ⟨hy, hlt2⟩
      exact ⟨hy, by omega⟩

theorem orderly_not_cyclic {adj : String → List String} {st : List String}
    (hnd : st.Nodup) (hord : Orderly adj st)
    (hsrc : ∀ p q, q ∈ adj p → p ∈ st) : ¬ GraphCyclic adj := by
  rintro ⟨a, l, hch⟩
  have ha : a ∈ st := by
    cases l with
    | nil =>
        simp only [List.nil_append, chainB, Bool.and_eq_true, decide_eq_true_eq] at hch
        exact hsrc a a hch.1
    | cons z l =>
        simp only [List.cons_append, chainB, Bool.and_eq_true, decide_eq_true_eq] at hch
        exact hsrc a z hch.1
  rcases chain_descend hnd hord l a a hch ha with ⟨_, hlt⟩
  omega

/-! ## DFS invariant preservation -/

theorem dfsRun_false_spec (adj : String → List String)
    (f : String → DfsState → Option (Bool × DfsState))
    (hf : ∀ node s s2, f node s = some (false, s2) → DfsInv adj s →
      DfsInv adj s2 ∧ s2.onStack = s.onStack ∧ (∀ x ∈ s.visited, x ∈ s2.visited) ∧
      (∃ d, s2.stack = s.stack ++ d) ∧ node ∉ s.onStack ∧ node ∈ s2.stack) :
    ∀ (ls : List String) (s s2 : DfsState),
      dfsRun f ls s = some (false, s2) → DfsInv adj s →
      DfsInv adj s2 ∧ s2.onStack = s.onStack ∧ (∀ x ∈ s.visited, x ∈ s2.visited) ∧
      (∃ d, s2.stack = s.stack ++ d) ∧ ∀ x ∈ ls, x ∉ s.onStack ∧ x ∈ s2.stack := by
  intro ls
  induction ls with
  | nil =>
      intro s s2 h hinv
      simp only [dfsRun] at h
      have hs : s = s2 := by simpa using h
      subst hs
      exact ⟨hinv, rfl, fun x hx => hx, ⟨[], by simp⟩, by simp⟩
  | cons b bs ih =>
      intro s s2 h hinv
      simp only [dfsRun] at h
      split at h
      · exact absurd h (by simp)
      · exact absurd h (by simp)
      · rename_i s3 heq
        have hstep := hf b s s3 heq hinv
        obtain ⟨hinv3, hon3, hvis3, ⟨d3, hst3⟩, hbnost, hbmem⟩ := hstep
        obtain ⟨hinv2, hon2, hvis2, ⟨d2, hst2⟩, hrest⟩ := ih s3 s2 h hinv3
        refine ⟨hinv2, by rw [hon2, hon3], fun x hx => hvis2 x (hvis3 x hx),
          ⟨d3 ++ d2, by rw [hst2, hst3, List.append_assoc]⟩, ?_⟩
        intro x hx
        rcases List.mem_cons.mp hx with rfl | hx
        · exact ⟨hbnost, by rw [hst2]; exact List.mem_append_left _ hbmem⟩
        · have hx2 := hrest x hx
          rw [hon3] at hx2
          exact hx2

theorem detectCycle_false_spec (adj : String → List String) :
    ∀ (fuel : Nat) (node : String) (s s2 : DfsState),
      detectCycle adj fuel node s = some (false, s2) → DfsInv adj s →
      DfsInv adj s2 ∧ s2.onStack = s.onStack ∧ (∀ x ∈ s.visited, x ∈ s2.visited) ∧
      (∃ d, s2.stack = s.stack ++ d) ∧ node ∉ s.onStack ∧ node ∈ s2.stack := by
  intro fuel
  induction fuel with
  | zero => intro node s s2 h; exact absurd h (by simp [detectCycle])
  | succ fuel ih =>
      intro node s s2 h hinv
      simp only [detectCycle] at h
      by_cases hon : node ∈ s.onStack
      · rw [if_pos hon] at h
        exact absurd h (by simp)
      · rw [if_neg hon] at h
        by_cases hvis : node ∈ s.visited
        · rw [if_pos hvis] at h
          have hs : s = s2 := by simpa using h
          subst hs
          have hstk : node ∈ s.stack := by
            rcases (hinv.part node).mp hvis with h1 | h1
            · exact absurd h1 hon
            · exact h1
          exact ⟨hinv, rfl, fun x hx => hx, ⟨[], by simp⟩, hon, hstk⟩
        · rw [if_neg hvis] at h
          -- the freshly marked state
          have hnstk : node ∉ s.stack := by
            intro hc
            exact hvis ((hinv.part node).mpr (Or.inr hc))
          have hinv1 : DfsInv adj
              { s with visited := node :: s.visited, onStack := node :: s.onStack } := by
            refine ⟨?_, hinv.nodup, ?_, hinv.orderly⟩
            · intro x
              simp only [List.mem_cons]
              constructor
              · rintro (rfl | hx)
                · exact Or.inl (Or.inl rfl)
                · rcases (hinv.part x).mp hx with h1 | h1
                  · exact Or.inl (Or.inr h1)
                  · exact Or.inr h1
              · rintro ((rfl | hx) | hx)
                · exact Or.inl rfl
                · exact Or.inr ((hinv.part x).mpr (Or.inl hx))
                · exact Or.inr ((hinv.part x).mpr (Or.inr hx))
            · intro x hx
              simp only [List.mem_cons]
              rintro (rfl | hc)
              · exact hnstk hx
              · exact hinv.disj x hx hc
          split at h
          · exact absurd h (by simp)
          · exact absurd h (by simp)
          · rename_i s3 heq
            have hrun := dfsRun_false_spec adj (detectCycle adj fuel) ih
              (adj node) _ s3 heq hinv1
            obtain ⟨hinv3, hon3, hvis3, ⟨d3, hst3⟩, hnb⟩ := hrun
            have hs2 := h
            simp only [Option.some.injEq, Prod.mk.injEq, true_and] at hs2
            subst hs2
            have hon3' : s3.onStack = node :: s.onStack := hon3
            have hnode3 : node ∉ s3.stack := by
              intro hc
              exact hinv3.disj node hc (by rw [hon3']; exact List.mem_cons_self _ _)
            have herase : s3.onStack.erase node = s.onStack := by
              rw [hon3']; exact List.erase_cons_head node s.onStack
            have hnbstk : ∀ b ∈ adj node, b ∈ s3.stack := fun b hb => (hnb b hb).2
            refine ⟨?_, herase, ?_, ⟨d3 ++ [node], by rw [hst3, List.append_assoc]⟩,
              hon, List.mem_append_right _ (List.mem_cons_self _ _)⟩
            · -- the invariant for the popped-and-pushed state
              refine ⟨?_, ?_, ?_, ?_⟩
              · intro x
                simp only
                rw [herase]
                constructor
                · intro hx
                  rcases (hinv3.part x).mp hx with h1 | h1
                  · rw [hon3'] at h1
                    rcases List.mem_cons.mp h1 with rfl | h1
                    · exact Or.inr (List.mem_append_right _ (List.mem_cons_self _ _))
                    · exact Or.inl h1
                  · exact Or.inr (List.mem_append_left _ h1)
                · rintro (hx | hx)
                  · exact (hinv3.part x).mpr (Or.inl (by rw [hon3']; exact List.mem_cons_of_mem _ hx))
                  · rcases List.mem_append.mp hx with h1 | h1
                    · exact (hinv3.part x).mpr (Or.inr h1)
                    · rcases List.mem_cons.mp h1 with rfl | h1
                      · exact (hinv3.part x).mpr (Or.inl (by rw [hon3']; exact List.mem_cons_self _ _))
                      · exact absurd h1 (List.not_mem_nil x)
              · simp only
                rw [List.nodup_append]
                exact ⟨hinv3.nodup, List.nodup_singleton node,
                  fun x hx hc => by
                    rcases List.mem_singleton.mp hc with rfl
                    exact hnode3 hx⟩
              · intro x hx
                simp only at hx ⊢
                rw [herase]
                rcases List.mem_append.mp hx with h1 | h1
                · intro hc
                  exact hinv3.disj x h1 (by rw [hon3']; exact List.mem_cons_of_mem _ hc)
                · rcases List.mem_singleton.mp h1 with rfl
                  exact hon
              · -- orderliness is preserved by the push
                intro a ha b hb
                simp only at ha ⊢
                rcases List.mem_append.mp ha with h1 | h1
                · exact splitBefore_append_right _ (hinv3.orderly a h1 b hb)
                · rcases List.mem_singleton.mp h1 with rfl
                  exact splitBefore_push _ (hnbstk b hb)
            · intro x hx
              exact hvis3 x (List.mem_cons_of_mem _ hx)

/-! ## Visited-set monotonicity and fuel adequacy -/

theorem dfsRun_mono (f : String → DfsState → Option (Bool × DfsState))
    (hf : ∀ node s b s2, f node s = some (b, s2) → ∀ x ∈ s.visited, x ∈ s2.visited) :
    ∀ (ls : List String) (s : DfsState) (b : Bool) (s2 : DfsState),
      dfsRun f ls s = some (b, s2) → ∀ x ∈ s.visited, x ∈ s2.visited := by
  intro ls
  induction ls with
  | nil =>
      intro s b s2 h
      simp only [dfsRun, Option.some.injEq, Prod.mk.injEq] at h
      rw [← h.2]
      exact fun x hx => hx
  | cons c cs ih =>
      intro s b s2 h
      simp only [dfsRun] at h
      split at h
      · exact absurd h (by simp)
      · rename_i s3 heq
        have hs := h
        simp only [Option.some.injEq, Prod.mk.injEq] at hs
        obtain ⟨hb, hss⟩ := hs
        subst hss
        exact hf c s true s3 heq
      · rename_i s3 heq
        exact fun x hx => ih s3 b s2 h x (hf c s false s3 heq x hx)

theorem detectCycle_mono (adj : String → List String) :
    ∀ (fuel : Nat) (node : String) (s : DfsState) (b : Bool) (s2 : DfsState),
      detectCycle adj fuel node s = some (b, s2) → ∀ x ∈ s.visited, x ∈ s2.visited := by
  intro fuel
  induction fuel with
  | zero => intro node s b s2 h; exact absurd h (by simp [detectCycle])
  | succ fuel ih =>
      intro node s b s2 h
      simp only [detectCycle] at h
      by_cases hon : node ∈ s.onStack
      · rw [if_pos hon] at h
        have hs := h
        simp only [Option.some.injEq, Prod.mk.injEq] at hs
        obtain ⟨hb, hss⟩ := hs
        subst hss; exact fun x hx => hx
      · rw [if_neg hon] at h
        by_cases hvis : node ∈ s.visited
        · rw [if_pos hvis] at h
          have hs := h
          simp only [Option.some.injEq, Prod.mk.injEq] at hs
          obtain ⟨hb, hss⟩ := hs
          subst hss; exact fun x hx => hx
        · rw [if_neg hvis] at h
          split at h
          · exact absurd h (by simp)
          · rename_i s3 heq
            have hs := h
            simp only [Option.some.injEq, Prod.mk.injEq] at hs
            obtain ⟨hb, hss⟩ := hs
            subst hss
            exact fun x hx =>
              dfsRun_mono (detectCycle adj fuel) ih (adj node) _ true s3 heq x
                (List.mem_cons_of_mem _ hx)
          · rename_i s3 heq
            have hs2 := h
            simp only [Option.some.injEq, Prod.mk.injEq] at hs2
            obtain ⟨hb, hss⟩ := hs2
            rw [← hss]
            exact fun x hx =>
              dfsRun_mono (detectCycle adj fuel) ih (adj node) _ false s3 heq x
                (List.mem_cons_of_mem _ hx)

theorem unvisCount_le_length (T : List String) (s : DfsState) :
    unvisCount T s ≤ T.length :=
  List.length_filter_le _ _

theorem unvisCount_mono (T : List String) (s s2 : DfsState)
    (h : ∀ x ∈ s.visited, x ∈ s2.visited) : unvisCount T s2 ≤ unvisCount T s := by
  apply List.Sublist.length_le
  apply List.monotone_filter_right
  intro a ha
  simp only [decide_eq_true_eq] at ha ⊢
  exact fun hc => ha (h a hc)

theorem unvisCount_insert_lt (T : List String) (s : DfsState) (node : String)
    (hT : node ∈ T) (hnv : node ∉ s.visited) :
    unvisCount T { s with visited := node :: s.visited } < unvisCount T s := by
  induction T with
  | nil => cases hT
  | cons a T ih =>
      by_cases han : a = node
      · subst han
        have h1 : unvisCount (a :: T) { s with visited := a :: s.visited }
            = unvisCount T { s with visited := a :: s.visited } := by
          unfold unvisCount
          rw [List.filter_cons, if_neg (by simp)]
        have h2 : unvisCount (a :: T) s = unvisCount T s + 1 := by
          unfold unvisCount
          rw [List.filter_cons, if_pos (by simp [hnv])]
          simp
        have h3 : unvisCount T { s with visited := a :: s.visited } ≤ unvisCount T s :=
          unvisCount_mono T s _ (fun x hx => List.mem_cons_of_mem _ hx)
        omega
      · have hT2 : node ∈ T := by
          rcases List.mem_cons.mp hT with rfl | h2
          · exact absurd rfl han
          · exact h2
        have hlt := ih hT2
        unfold unvisCount at hlt ⊢
        rw [List.filter_cons, List.filter_cons]
        by_cases hav : a ∈ s.visited
        · rw [if_neg (by simp [hav]), if_neg (by simp [hav])]
          exact hlt
        · have hav2 : a ∉ (node :: s.visited) := by
            simp only [List.mem_cons]
            rintro (h2 | h2)
            · exact han h2
            · exact hav h2
          rw [if_pos (by simpa using hav2), if_pos (by simp [hav])]
          simpa using Nat.succ_lt_succ hlt

theorem dfsRun_fuel (f : String → DfsState → Option (Bool × DfsState))
    (T : List String) (B : Nat)
    (hne : ∀ node s, node ∈ T → unvisCount T s < B → f node s ≠ none)
    (hmono : ∀ node s b s2, f node s = some (b, s2) → ∀ x ∈ s.visited, x ∈ s2.visited) :
    ∀ (ls : List String) (s : DfsState), (∀ x ∈ ls, x ∈ T) → unvisCount T s < B →
      dfsRun f ls s ≠ none := by
  intro ls
  induction ls with
  | nil => intro s _ _; simp [dfsRun]
  | cons b bs ih =>
      intro s hls hB
      simp only [dfsRun]
      rcases hfb : f b s with _ | ⟨bb, s3⟩
      · exact absurd hfb (hne b s (hls b (List.mem_cons_self _ _)) hB)
      · cases bb
        · have hle : unvisCount T s3 ≤ unvisCount T s :=
            unvisCount_mono T s s3 (hmono b s false s3 hfb)
          exact ih s3 (fun x hx => hls x (List.mem_cons_of_mem _ hx)) (by omega)
        · simp

theorem detectCycle_fuel (adj : String → List String) (T : List String)
    (hadj : ∀ a b, b ∈ adj a → b ∈ T) :
    ∀ (fuel : Nat) (node : String) (s : DfsState), node ∈ T →
      unvisCount T s < fuel → detectCycle adj fuel node s ≠ none := by
  intro fuel
  induction fuel with
  | zero => intro node s _ hB; omega
  | succ fuel ih =>
      intro node s hT hB
      simp only [detectCycle]
      by_cases hon : node ∈ s.onStack
      · rw [if_pos hon]; simp
      · rw [if_neg hon]
        by_cases hvis : node ∈ s.visited
        · rw [if_pos hvis]; simp
        · rw [if_neg hvis]
          have hlt : unvisCount T
              { s with visited := node :: s.visited, onStack := node :: s.onStack }
              < unvisCount T s := unvisCount_insert_lt T s node hT hvis
          rcases hr : dfsRun (detectCycle adj fuel) (adj node)
              { s with visited := node :: s.visited, onStack := node :: s.onStack }
            with _ | ⟨bb, s3⟩
          · exact absurd hr
              (dfsRun_fuel (detectCycle adj fuel) T fuel
                (fun n s4 hn hlt4 => ih n s4 hn hlt4)
                (detectCycle_mono adj fuel) (adj node) _
                (fun x hx => hadj node x hx) (by omega))
          · cases bb <;> simp

/-! ## The top-level sorting loop -/

theorem topoLoop_ok_spec (adj : String → List String) (fuel : Nat) :
    ∀ (ks : List String) (s : DfsState) (order : List String),
      topoLoop adj fuel ks s = .ok order → DfsInv adj s → s.onStack = [] →
      ∃ st, order = st.reverse ∧ st.Nodup ∧ Orderly adj st ∧
        (∀ k ∈ ks, k ∈ st) ∧ (∀ x ∈ s.stack, x ∈ st) := by
  intro ks
  induction ks with
  | nil =>
      intro s order h hinv hon
      simp only [topoLoop, Except.ok.injEq] at h
      refine ⟨s.stack, h.symm, hinv.nodup, hinv.orderly, ?_, fun x hx => hx⟩
      intro k hk
      exact absurd hk (List.not_mem_nil k)
  | cons k ks ih =>
      intro s order h hinv hon
      simp only [topoLoop] at h
      by_cases hv : k ∈ s.visited
      · rw [if_pos hv] at h
        obtain ⟨st, ho, hnd, hordly, hks, hstk⟩ := ih s order h hinv hon
        refine ⟨st, ho, hnd, hordly, ?_, hstk⟩
        intro k2 hk2
        rcases List.mem_cons.mp hk2 with rfl | hk2
        · have hk : k2 ∈ s.stack := by
            rcases (hinv.part k2).mp hv with h1 | h1
            · rw [hon] at h1; exact absurd h1 (List.not_mem_nil k2)
            · exact h1
          exact hstk k2 hk
        · exact hks k2 hk2
      · rw [if_neg hv] at h
        split at h
        · exact absurd h (by simp)
        · exact absurd h (by simp)
        · rename_i s2 heq
          have hstep := detectCycle_false_spec adj fuel k s s2 heq hinv
          obtain ⟨hinv2, hon2, hvis2, ⟨d, hst2⟩, hkon, hkstk⟩ := hstep
          obtain ⟨st, ho, hnd, hordly, hks, hstk⟩ :=
            ih s2 order h hinv2 (by rw [hon2, hon])
          refine ⟨st, ho, hnd, hordly, ?_,
            fun x hx => hstk x (by rw [hst2]; exact List.mem_append_left _ hx)⟩
          intro k2 hk2
          rcases List.mem_cons.mp hk2 with rfl | hk2
          · exact hstk k2 hkstk
          · exact hks k2 hk2

theorem topoLoop_error_form (adj : String → List String) (T : List String)
    (fuel : Nat) (hadj : ∀ a b, b ∈ adj a → b ∈ T) (hfuel : T.length < fuel) :
    ∀ (ks : List String) (s : DfsState) (e : String), (∀ k ∈ ks, k ∈ T) →
      topoLoop adj fuel ks s = .error e → ∃ k, k ∈ ks ∧ e = cycleMsg k := by
  intro ks
  induction ks with
  | nil => intro s e _ h; simp [topoLoop] at h
  | cons k ks ih =>
      intro s e hks h
      simp only [topoLoop] at h
      by_cases hv : k ∈ s.visited
      · rw [if_pos hv] at h
        obtain ⟨k2, hk2, he⟩ := ih s e (fun x hx => hks x (List.mem_cons_of_mem _ hx)) h
        exact ⟨k2, List.mem_cons_of_mem _ hk2, he⟩
      · rw [if_neg hv] at h
        split at h
        · rename_i heq
          have hB : unvisCount T s < fuel :=
            lt_of_le_of_lt (unvisCount_le_length T s) hfuel
          exact absurd heq
            (detectCycle_fuel adj T hadj fuel k s (hks k (List.mem_cons_self _ _)) hB)
        · have he : cycleMsg k = e := by simpa using h
          exact ⟨k, List.mem_cons_self _ _, he.symm⟩
        · rename_i s2 heq
          obtain ⟨k2, hk2, he⟩ := ih s2 e (fun x hx => hks x (List.mem_cons_of_mem _ hx)) h
          exact ⟨k2, List.mem_cons_of_mem _ hk2, he⟩

/-! ## `topologicalSort`: global soundness and completeness -/

theorem topologicalSort_ok_spec (schemas : List Sch) (order : List String)
    (h : topologicalSort schemas = .ok order) :
    ∃ st, order = st.reverse ∧ st.Nodup ∧ Orderly (adjOf schemas) st ∧
      ∀ t ∈ titlesOf schemas, t ∈ st := by
  simp only [topologicalSort] at h
  have hini : DfsInv (adjOf schemas) ⟨[], [], []⟩ := by
    refine ⟨by simp, List.nodup_nil, by simp, ?_⟩
    intro a ha
    exact absurd ha (List.not_mem_nil a)
  obtain ⟨st, ho, hnd, hord, hks, _⟩ :=
    topoLoop_ok_spec (adjOf schemas) ((titlesOf schemas).length + 1)
      (objectKeys (titlesOf schemas)) ⟨[], [], []⟩ order h hini rfl
  exact ⟨st, ho, hnd, hord, fun t ht => hks t ((mem_objectKeys t _).mpr ht)⟩

theorem topologicalSort_error_form (schemas : List Sch) (e : String)
    (h : topologicalSort schemas = .error e) :
    ∃ k, k ∈ titlesOf schemas ∧ e = cycleMsg k := by
  simp only [topologicalSort] at h
  obtain ⟨k, hk, he⟩ := topoLoop_error_form (adjOf schemas) (titlesOf schemas)
    ((titlesOf schemas).length + 1) (fun a b hb => adjOf_subset_titles hb)
    (by omega) (objectKeys (titlesOf schemas)) ⟨[], [], []⟩ e
    (fun x hx => (mem_objectKeys x _).mp hx) h
  exact ⟨k, (mem_objectKeys k _).mp hk, he⟩

theorem topologicalSort_ok_acyclic (schemas : List Sch) (order : List String)
    (h : topologicalSort schemas = .ok order) : ¬ GraphCyclic (adjOf schemas) := by
  obtain ⟨st, _, hnd, hord, hT⟩ := topologicalSort_ok_spec schemas order h
  exact orderly_not_cyclic hnd hord (fun p q hq => hT p (adjOf_mem_titles hq))

theorem cyclic_sort_error (schemas : List Sch) (hcyc : GraphCyclic (adjOf schemas)) :
    ∃ k, k ∈ titlesOf schemas ∧ topologicalSort schemas = .error (cycleMsg k) := by
  rcases hres : topologicalSort schemas with e | order
  · obtain ⟨k, hk, he⟩ := topologicalSort_error_form schemas e hres
    exact ⟨k, hk, by rw [he]⟩
  · exact absurd hcyc (topologicalSort_ok_acyclic schemas order hres)

/-! ## The property loop of `generateFakeData` -/

theorem genPropsAux_not_mem (gp : Sch → Value) (db : ExtDB) (fdm : Store) (index : Nat) :
    ∀ (ps : PropList) (key : String), key ∉ ps.toList.map Prod.fst →
      jsGet (genPropsAux gp db fdm index ps) key = none
  | .nil, key, _ => rfl
  | .cons k p rest, key, hkey => by
      have hkne : k ≠ key := by
        intro h
        exact hkey (by simp [PropList.toList, h])
      have hkey2 : key ∉ rest.toList.map Prod.fst := by
        intro h
        apply hkey
        simp only [PropList.toList, List.map_cons]
        exact List.mem_cons_of_mem _ h
      have ih := genPropsAux_not_mem gp db fdm index rest key hkey2
      cases p with
      | mk t e f ty it pr ft g =>
        simp only [genPropsAux]
        repeat' split
        all_goals
          first
          | exact ih
          | (simp only [jsGet, if_neg hkne]; exact ih)

theorem genPropsAux_lookup (gp : Sch → Value) (db : ExtDB) (fdm : Store) (index : Nat) :
    ∀ (ps : PropList) (key : String) (p : Sch),
      (ps.toList.map Prod.fst).Nodup → (key, p) ∈ ps.toList →
      jsGet (genPropsAux gp db fdm index ps) key = fieldOutcome gp db fdm index p
  | .nil, key, p, _, hmem => absurd hmem (List.not_mem_nil _)
  | .cons k q rest, key, p, hnd, hmem => by
      have hnd0 : ((k, q) :: rest.toList).map Prod.fst = k :: rest.toList.map Prod.fst := by
        simp
      have hndc : (k :: rest.toList.map Prod.fst).Nodup := by
        have := hnd
        simp only [PropList.toList, List.map_cons] at this
        exact this
      have hnd2 : (rest.toList.map Prod.fst).Nodup := (List.nodup_cons.mp hndc).2
      have hknot : k ∉ rest.toList.map Prod.fst := (List.nodup_cons.mp hndc).1
      rcases List.mem_cons.mp hmem with heq | hmem2
      · -- the binding is the head property
        obtain ⟨rfl, rfl⟩ : key = k ∧ p = q := by
          have h2 := heq
          simp only [Prod.mk.injEq] at h2
          exact h2
        have hrest : jsGet (genPropsAux gp db fdm index rest) key = none :=
          genPropsAux_not_mem gp db fdm index rest key hknot
        cases p with
        | mk t e f ty it pr ft g =>
          simp only [genPropsAux, fieldOutcome]
          cases g
          · simp only [Bool.false_eq_true, if_false]
            by_cases hft : ft ≠ ""
            · rw [if_pos hft, if_pos hft]
              by_cases hau : ft = "auth.users"
              · rw [if_pos hau, if_pos hau]
                rcases hfetch : fetchDataFromTable db "auth.users" index with _ | ⟨r, rs⟩
                · exact hrest
                · exact jsGet_cons_self _ _ _
              · rw [if_neg hau, if_neg hau]
                rcases hlook : jsGet fdm ft with _ | rows
                · exact hrest
                · by_cases hlen : rows.length > 0
                  · simp [hlen, jsGet]
                  · simp [hlen, hrest]
            · rw [if_neg hft, if_neg hft]
              exact jsGet_cons_self _ _ _
          · simp only [if_true]
            exact hrest
      · -- the binding is further down; the head key differs
        have hkmem : key ∈ rest.toList.map Prod.fst :=
          List.mem_map.mpr ⟨(key, p), hmem2, rfl⟩
        have hkne : k ≠ key := fun h => hknot (h ▸ hkmem)
        have ih := genPropsAux_lookup gp db fdm index rest key p hnd2 hmem2
        cases q with
        | mk t e f ty it pr ft g =>
          simp only [genPropsAux]
          repeat' split
          all_goals
            first
            | exact ih
            | (simp only [jsGet, if_neg hkne]; exact ih)

theorem generateFakeData_lookup (fk : Faker) (db : ExtDB) (fuel index : Nat)
    (fdm : Store) (schema : Sch) (ps : PropList) (key : String) (p : Sch)
    (htitle : schema.title.startsWith "auth." = false)
    (hprops : schema.properties = .props ps)
    (hnd : (ps.toList.map Prod.fst).Nodup) (hmem : (key, p) ∈ ps.toList) :
    rowLookup (generateFakeData fk db fuel schema fdm index) key
      = fieldOutcome (generatePropertyData fk db fdm fuel index) db fdm index p := by
  cases schema with
  | mk t e f ty it pr ft g =>
    simp only [Sch.title] at htitle
    simp only [Sch.properties] at hprops
    subst hprops
    simp only [generateFakeData, Sch.title, htitle, Bool.false_eq_true, if_false,
      rowLookup]
    exact genPropsAux_lookup _ db fdm index ps key p hnd hmem

theorem generatePropertyData_default (fk : Faker) (db : ExtDB) (fdm : Store)
    (fuel index : Nat) (p : Sch)
    (henum : p.enum = none)
    (hf1 : p.format ≠ "uuid") (hf2 : p.format ≠ "date-time")
    (ht1 : p.ptype ≠ "string") (ht2 : p.ptype ≠ "number")
    (ht3 : p.ptype ≠ "integer") (ht4 : p.ptype ≠ "boolean")
    (harr : ¬ (p.ptype = "array" ∧ p.items.present = true))
    (hobj : ¬ (p.ptype = "object" ∧ p.properties.present = true)) :
    generatePropertyData fk db fdm (fuel + 1) index p = Value.vnull := by
  cases p with
  | mk t e f ty it pr ft g =>
    simp only [Sch.enum] at henum
    subst henum
    simp only [Sch.format] at hf1 hf2
    simp only [Sch.ptype] at ht1 ht2 ht3 ht4
    have harr2 : ¬ (ty = "array" ∧ it.present = true) := harr
    have hobj2 : ¬ (ty = "object" ∧ pr.present = true) := hobj
    simp only [generatePropertyData]
    split_ifs with h1
    · exact absurd h1 (by simp)
    · rfl

theorem rowLookup_mem_insertColumns (v : Value) (key : String) (x : Value)
    (h : rowLookup v key = some x) : key ∈ insertColumns v := by
  cases v with
  | vobj fields =>
      simp only [rowLookup] at h
      simpa [insertColumns] using jsGet_some_mem fields key x h
  | vundef => exact absurd h (by simp [rowLookup])
  | vnull => exact absurd h (by simp [rowLookup])
  | vstr s => exact absurd h (by simp [rowLookup])
  | vnum n => exact absurd h (by simp [rowLookup])
  | vbool b => exact absurd h (by simp [rowLookup])
  | varr vs => exact absurd h (by simp [rowLookup])


/-! ## Soundness of the cycle detector: a `true` result exhibits a cycle -/

theorem chainB_append_edge (adj : String → List String) :
    ∀ (l : List String) (x y z : String), chainB adj x (l ++ [y]) = true →
      z ∈ adj y → chainB adj x ((l ++ [y]) ++ [z]) = true := by
  intro l
  induction l with
  | nil =>
      intro x y z h hz
      simp only [List.nil_append, List.cons_append, chainB, Bool.and_eq_true,
        Bool.and_true, decide_eq_true_eq] at h ⊢
      exact ⟨h, hz⟩
  | cons a l ih =>
      intro x y z h hz
      simp only [List.cons_append, chainB, Bool.and_eq_true, decide_eq_true_eq] at h ⊢
      exact ⟨h.1, ih a y z h.2 hz⟩

theorem chainUp_path (adj : String → List String) :
    ∀ (st : List String) (a node : String),
      chainUp adj (a :: st) = true → node ∈ a :: st →
      node = a ∨ ∃ l, chainB adj node (l ++ [a]) = true := by
  intro st
  induction st with
  | nil =>
      intro a node _ hmem
      rcases List.mem_cons.mp hmem with rfl | h2
      · exact Or.inl rfl
      · exact absurd h2 (List.not_mem_nil node)
  | cons b st ih =>
      intro a node hch hmem
      simp only [chainUp, Bool.and_eq_true, decide_eq_true_eq] at hch
      rcases List.mem_cons.mp hmem with rfl | hmem2
      · exact Or.inl rfl
      · rcases ih b node hch.2 hmem2 with rfl | ⟨l, hl⟩
        · refine Or.inr ⟨[], ?_⟩
          simp only [List.nil_append, chainB, Bool.and_eq_true, Bool.and_true,
            decide_eq_true_eq]
          exact hch.1
        · exact Or.inr ⟨l ++ [b], chainB_append_edge adj l node b a hl hch.1⟩

theorem DfsInv.push {adj : String → List String} {s : DfsState} {node : String}
    (hinv : DfsInv adj s) (hvis : node ∉ s.visited) :
    DfsInv adj { s with visited := node :: s.visited, onStack := node :: s.onStack } := by
  have hnstk : node ∉ s.stack := fun hc => hvis ((hinv.part node).mpr (Or.inr hc))
  refine ⟨?_, hinv.nodup, ?_, hinv.orderly⟩
  · intro x
    simp only [List.mem_cons]
    constructor
    · rintro (rfl | hx)
      · exact Or.inl (Or.inl rfl)
      · rcases (hinv.part x).mp hx with h1 | h1
        · exact Or.inl (Or.inr h1)
        · exact Or.inr h1
    · rintro ((rfl | hx) | hx)
      · exact Or.inl rfl
      · exact Or.inr ((hinv.part x).mpr (Or.inl hx))
      · exact Or.inr ((hinv.part x).mpr (Or.inr hx))
  · intro x hx
    simp only [List.mem_cons]
    rintro (rfl | hc)
    · exact hnstk hx
    · exact hinv.disj x hx hc

theorem dfsRun_true_cyclic (adj : String → List String)
    (f : String → DfsState → Option (Bool × DfsState))
    (hf : ∀ node s s2, f node s = some (true, s2) → DfsInv adj s →
      chainUp adj s.onStack = true →
      (∀ a rest, s.onStack = a :: rest → node ∈ adj a) → GraphCyclic adj)
    (hfalse : ∀ node s s2, f node s = some (false, s2) → DfsInv adj s →
      DfsInv adj s2 ∧ s2.onStack = s.onStack) :
    ∀ (ls : List String) (s s2 : DfsState),
      dfsRun f ls s = some (true, s2) → DfsInv adj s →
      chainUp adj s.onStack = true →
      (∀ x ∈ ls, ∀ a rest, s.onStack = a :: rest → x ∈ adj a) →
      GraphCyclic adj := by
  intro ls
  induction ls with
  | nil => intro s s2 h _ _ _; exact absurd h (by simp [dfsRun])
  | cons b bs ih =>
      intro s s2 h hinv hch hlink
      simp only [dfsRun] at h
      split at h
      · exact absurd h (by simp)
      · rename_i s3 heq
        exact hf b s s3 heq hinv hch (fun a rest h2 => hlink b (List.mem_cons_self _ _) a rest h2)
      · rename_i s3 heq
        obtain ⟨hinv3, hon3⟩ := hfalse b s s3 heq hinv
        refine ih s3 s2 h hinv3 (by rw [hon3]; exact hch) ?_
        intro x hx a rest h2
        rw [hon3] at h2
        exact hlink x (List.mem_cons_of_mem _ hx) a rest h2

theorem detectCycle_true_cyclic (adj : String → List String) :
    ∀ (fuel : Nat) (node : String) (s s2 : DfsState),
      detectCycle adj fuel node s = some (true, s2) → DfsInv adj s →
      chainUp adj s.onStack = true →
      (∀ a rest, s.onStack = a :: rest → node ∈ adj a) → GraphCyclic adj := by
  intro fuel
  induction fuel with
  | zero => intro node s s2 h _ _ _; exact absurd h (by simp [detectCycle])
  | succ fuel ih =>
      intro node s s2 h hinv hch hlink
      simp only [detectCycle] at h
      by_cases hon : node ∈ s.onStack
      · rcases hstk : s.onStack with _ | ⟨a, rest⟩
        · rw [hstk] at hon; exact absurd hon (List.not_mem_nil node)
        · have hlink2 : node ∈ adj a := hlink a rest hstk
          rw [hstk] at hch hon
          rcases chainUp_path adj rest a node hch hon with rfl | ⟨l, hl⟩
          · refine ⟨node, [], ?_⟩
            simp only [List.nil_append, chainB, Bool.and_eq_true, Bool.and_true,
              decide_eq_true_eq]
            exact hlink2
          · exact ⟨node, l ++ [a], chainB_append_edge adj l node a node hl hlink2⟩
      · rw [if_neg hon] at h
        by_cases hvis : node ∈ s.visited
        · rw [if_pos hvis] at h
          exact absurd h (by simp)
        · rw [if_neg hvis] at h
          split at h
          · exact absurd h (by simp)
          · rename_i s3 heq
            have hch1 : chainUp adj (node :: s.onStack) = true := by
              rcases hstk : s.onStack with _ | ⟨a, rest⟩
              · rfl
              · rw [hstk] at hch
                simp only [chainUp, Bool.and_eq_true, decide_eq_true_eq]
                exact ⟨hlink a rest hstk, hch⟩
            refine dfsRun_true_cyclic adj (detectCycle adj fuel) ih
              (fun n s4 s5 h4 hi =>
                ⟨(detectCycle_false_spec adj fuel n s4 s5 h4 hi).1,
                 (detectCycle_false_spec adj fuel n s4 s5 h4 hi).2.1⟩)
              (adj node) _ s3 heq (hinv.push hvis) hch1 ?_
            intro x hx a rest h2
            have h3 : node = a ∧ s.onStack = rest := by
              have h4 := h2
              simp only [List.cons.injEq] at h4
              exact h4
            rw [← h3.1]
            exact hx
          · exact absurd h (by simp)

theorem topoLoop_error_cyclic (adj : String → List String) (T : List String)
    (fuel : Nat) (hadj : ∀ a b, b ∈ adj a → b ∈ T) (hfuel : T.length < fuel) :
    ∀ (ks : List String) (s : DfsState) (e : String), (∀ k ∈ ks, k ∈ T) →
      DfsInv adj s → s.onStack = [] →
      topoLoop adj fuel ks s = .error e → GraphCyclic adj := by
  intro ks
  induction ks with
  | nil => intro s e _ _ _ h; simp [topoLoop] at h
  | cons k ks ih =>
      intro s e hks hinv hon h
      simp only [topoLoop] at h
      by_cases hv : k ∈ s.visited
      · rw [if_pos hv] at h
        exact ih s e (fun x hx => hks x (List.mem_cons_of_mem _ hx)) hinv hon h
      · rw [if_neg hv] at h
        split at h
        · rename_i heq
          have hB : unvisCount T s < fuel :=
            lt_of_le_of_lt (unvisCount_le_length T s) hfuel
          exact absurd heq
            (detectCycle_fuel adj T hadj fuel k s (hks k (List.mem_cons_self _ _)) hB)
        · rename_i s3 heq
          exact detectCycle_true_cyclic adj fuel k s s3 heq hinv
            (by rw [hon]; rfl)
            (by intro a rest h2; rw [hon] at h2; cases h2)
        · rename_i s3 heq
          have hstep := detectCycle_false_spec adj fuel k s s3 heq hinv
          exact ih s3 e (fun x hx => hks x (List.mem_cons_of_mem _ hx)) hstep.1
            (by rw [hstep.2.1, hon]) h

theorem topologicalSort_error_cyclic (schemas : List Sch) (e : String)
    (h : topologicalSort schemas = .error e) : GraphCyclic (adjOf schemas) := by
  simp only [topologicalSort] at h
  exact topoLoop_error_cyclic (adjOf schemas) (titlesOf schemas)
    ((titlesOf schemas).length + 1) (fun a b hb => adjOf_subset_titles hb)
    (by omega) (objectKeys (titlesOf schemas)) ⟨[], [], []⟩ e
    (fun x hx => (mem_objectKeys x _).mp hx)
    ⟨by simp, List.nodup_nil, by simp, fun a ha => absurd ha (List.not_mem_nil a)⟩
    rfl h

theorem acyclic_sort_ok (schemas : List Sch)
    (hacyc : ¬ GraphCyclic (adjOf schemas)) :
    ∃ order, topologicalSort schemas = .ok order := by
  rcases hres : topologicalSort schemas with e | order
  · exact absurd (topologicalSort_error_cyclic schemas e hres) hacyc
  · exact ⟨order, rfl⟩

/-! # Claim theorems -/

/-- **C1.** For every input schema set whose derived dependency graph is
acyclic, `topologicalSort` succeeds, and the returned ordering places `A`
strictly before `B` for every derived edge `A → B` — that is, whenever some
schema titled `B` contains a foreign reference to `A` at any depth reached by
`findForeignTables`, and `A` is itself a title of the input set. -/
theorem c1_sort_respects_edges (schemas : List Sch) (A B : String)
    (hacyc : ¬ GraphCyclic (adjOf schemas))
    (hA : A ∈ titlesOf schemas)
    (hBref : ∃ sc ∈ schemas, sc.title = B ∧ A ∈ findForeignTables sc) :
    ∃ order, topologicalSort schemas = .ok order ∧ SplitBefore order A B := by
  obtain ⟨order, hok⟩ := acyclic_sort_ok schemas hacyc
  refine ⟨order, hok, ?_⟩
  have hedge : B ∈ adjOf schemas A := (edgeRel_iff schemas A B).mpr ⟨hA, hBref⟩
  obtain ⟨st, ho, hnd, hord, hT⟩ := topologicalSort_ok_spec schemas order hok
  have hAst : A ∈ st := hT A hA
  have hsb := hord A hAst B hedge
  rw [ho]
  exact splitBefore_reverse hsb

theorem c1_witness :
    topologicalSort exDag = Except.ok ["A", "B"]
    ∧ SplitBefore ["A", "B"] "A" "B" := by
  obtain ⟨order, hok, hsb⟩ := c1_sort_respects_edges exDag "A" "B"
    (topologicalSort_ok_acyclic exDag ["A", "B"] rfl) (by decide)
    ⟨schB, by simp [exDag], rfl, by decide⟩
  have hor : order = ["A", "B"] :=
    Except.ok.inj
      (hok.symm.trans (show topologicalSort exDag = Except.ok ["A", "B"] from rfl))
  subst hor
  exact ⟨rfl, hsb⟩

/-- **C3 (counterexample).** On the input `exCyc3` the derived graph has the
cycle `A → B → A` (both edges shown), yet the thrown error names `C`, a node
with no incoming edge at all — hence a node lying on no cyclic path. -/
theorem c3_counterexample :
    topologicalSort exCyc3 = Except.error (cycleMsg "C")
    ∧ "B" ∈ adjOf exCyc3 "A" ∧ "A" ∈ adjOf exCyc3 "B"
    ∧ ∀ x, "C" ∉ adjOf exCyc3 x := by
  refine ⟨rfl, by decide, by decide, ?_⟩
  intro x hc
  have hx : x ∈ titlesOf exCyc3 := adjOf_mem_titles hc
  have hx3 : x = "C" ∨ x = "A" ∨ x = "B" := by
    simpa [exCyc3, titlesOf, schC0, schA2, schB2, Sch.title] using hx
  rcases hx3 with rfl | rfl | rfl
  · exact absurd hc (by decide)
  · exact absurd hc (by decide)
  · exact absurd hc (by decide)

/-- **C3 (amended).** For every input whose derived dependency graph contains
a cycle, `topologicalSort` fails with the cycle error, and the node named in
the error is one of the input titles (the root of the DFS traversal in which
the cycle was found) — it need not lie on the cyclic path itself
(`c3_counterexample`). -/
theorem c3_cycle_error_names_title (schemas : List Sch)
    (hcyc : GraphCyclic (adjOf schemas)) :
    ∃ k, k ∈ titlesOf schemas ∧ topologicalSort schemas = .error (cycleMsg k) :=
  cyclic_sort_error schemas hcyc

theorem c3_witness :
    ∃ k, k ∈ titlesOf exCyc2 ∧ topologicalSort exCyc2 = Except.error (cycleMsg k) :=
  c3_cycle_error_names_title exCyc2 ⟨"A", ["B"], by decide⟩

/-- **C4.** For every input whose derived dependency graph contains a cycle,
the whole run fails with the cycle error: `mainModel` rejects before the
purge, the generation loop and the insertion step are ever reached, so no
fixture row is synthesized and nothing is inserted. -/
theorem c4_cycle_aborts_run (fk : Faker) (db : ExtDB) (delOk : String → Bool)
    (insOk : String → Value → Bool) (fuel : Nat) (schemas : List Sch)
    (hcyc : GraphCyclic (adjOf schemas)) :
    ∃ k, k ∈ titlesOf schemas ∧
      mainModel fk db delOk insOk fuel schemas = .error (cycleMsg k) := by
  obtain ⟨k, hk, herr⟩ := cyclic_sort_error schemas hcyc
  exact ⟨k, hk, by simp [mainModel, herr]⟩

theorem c4_witness :
    ∃ k, k ∈ titlesOf exCyc2 ∧
      mainModel fkDefault dbErr (fun _ => true) (fun _ _ => true) 1 exCyc2
        = Except.error (cycleMsg k) :=
  c4_cycle_aborts_run fkDefault dbErr (fun _ => true) (fun _ _ => true) 1 exCyc2
    ⟨"A", ["B"], by decide⟩

/-- **C2.** For a non-protected table schema with a foreign-reference field
targeting a non-protected table `F`: when the fixture store holds a non-empty
row sequence for `F` at synthesis time, the synthesized row binds that field
to the `id` of record `index % length` of that sequence — and therefore to
the id of a row already present in the store at resolution time. -/
theorem c2_fk_round_robin (fk : Faker) (db : ExtDB) (fuel index : Nat)
    (fdm : Store) (schema : Sch) (ps : PropList) (key : String) (p : Sch)
    (F : String) (rows : List Value)
    (htitle : schema.title.startsWith "auth." = false)
    (hprops : schema.properties = .props ps)
    (hnd : (ps.toList.map Prod.fst).Nodup)
    (hmem : (key, p) ∈ ps.toList)
    (hgen : p.isGenerated = false)
    (hft : p.foreignTable = F) (hF1 : F ≠ "") (hF2 : F ≠ "auth.users")
    (hrows : jsGet fdm F = some rows) (hne : rows ≠ []) :
    rowLookup (generateFakeData fk db fuel schema fdm index) key
      = some (jsGetId (rows.getD (index % rows.length) Value.vundef))
    ∧ ∃ r ∈ rows,
        rowLookup (generateFakeData fk db fuel schema fdm index) key
          = some (jsGetId r) := by
  have hlook := generateFakeData_lookup fk db fuel index fdm schema ps key p
    htitle hprops hnd hmem
  have hout : fieldOutcome (generatePropertyData fk db fdm fuel index) db fdm index p
      = some (jsGetId (rows.getD (index % rows.length) Value.vundef)) := by
    cases p with
    | mk t e f ty it pr ft g =>
      simp only [Sch.isGenerated] at hgen
      simp only [Sch.foreignTable] at hft
      subst hgen
      subst hft
      have hlen : rows.length > 0 := List.length_pos.mpr hne
      simp [fieldOutcome, hF1, hF2, hrows, hlen]
  rw [hlook, hout]
  refine ⟨rfl, ⟨rows.getD (index % rows.length) Value.vundef, ?_, rfl⟩⟩
  have hlen : 0 < rows.length := List.length_pos.mpr hne
  have hmod : index % rows.length < rows.length := Nat.mod_lt _ hlen
  rw [List.getD_eq_getElem rows Value.vundef hmod]
  exact List.getElem_mem hmod

theorem c2_witness :
    rowLookup (generateFakeData fkDefault dbErr 1 schT [("A", rowsA)] 4) "a_id"
      = some (Value.vstr "id1") := by
  have h := c2_fk_round_robin fkDefault dbErr 1 4 [("A", rowsA)] schT
    (.cons "a_id" (fkProp "A") .nil) "a_id" (fkProp "A") "A" rowsA
    rfl rfl (by simp [PropList.toList]) (by simp [PropList.toList]) rfl rfl
    (by decide) (by decide) rfl (by simp [rowsA])
  exact h.1

/-- **C5 (counterexample).** The protected table `auth.users` holds exactly
one row (`u0`), yet the synthesized row for index `1` leaves the
foreign-reference field unset: there is no fallback to the first available
key — the claimed fallback assignment does not happen. -/
theorem c5_counterexample :
    rowLookup (generateFakeData fkDefault dbUsers1 1 schC [] 1) "user_id" = none
    ∧ dbUsers1 "auth.users" = QueryResult.ok [Value.vstr "u0"] := ⟨rfl, rfl⟩

set_option maxRecDepth 4000 in
/-- **C5 (amended).** For a foreign-reference field targeting the protected
table `auth.users`, synthesis for row index `i` resolves the field
positionally: the key at offset `i` when `auth.users` has more than `i` rows;
when it has at most `i` rows, the offset query returns no row and the field
is left unset (no fallback). -/
theorem c5_auth_positional (fk : Faker) (db : ExtDB) (fuel index : Nat)
    (fdm : Store) (schema : Sch) (ps : PropList) (key : String) (p : Sch)
    (ids : List Value)
    (htitle : schema.title.startsWith "auth." = false)
    (hprops : schema.properties = .props ps)
    (hnd : (ps.toList.map Prod.fst).Nodup)
    (hmem : (key, p) ∈ ps.toList)
    (hgen : p.isGenerated = false)
    (hft : p.foreignTable = "auth.users")
    (hids : db "auth.users" = .ok ids) :
    (index < ids.length →
      rowLookup (generateFakeData fk db fuel schema fdm index) key
        = some (ids.getD index Value.vundef))
    ∧ (ids.length ≤ index →
      rowLookup (generateFakeData fk db fuel schema fdm index) key = none) := by
  have hlook := generateFakeData_lookup fk db fuel index fdm schema ps key p
    htitle hprops hnd hmem
  cases p with
  | mk t e f ty it pr ft g =>
    simp only [Sch.isGenerated] at hgen
    simp only [Sch.foreignTable] at hft
    subst hgen
    subst hft
    constructor
    · intro hlt
      have hfetch : fetchDataFromTable db "auth.users" index
          = [Value.vobj [("id", ids[index])]] := by
        unfold fetchDataFromTable
        rw [hids]
        show ((ids.drop index).take 1).map (fun v => Value.vobj [("id", v)]) = _
        rw [List.drop_eq_getElem_cons hlt]
        rfl
      rw [hlook]
      rw [List.getD_eq_getElem ids Value.vundef hlt]
      simp [fieldOutcome, hfetch, jsGetId, jsGet]
    · intro hge
      have hfetch : fetchDataFromTable db "auth.users" index = [] := by
        unfold fetchDataFromTable
        rw [hids]
        show ((ids.drop index).take 1).map (fun v => Value.vobj [("id", v)]) = _
        rw [List.drop_eq_nil_of_le hge]
        rfl
      rw [hlook]
      simp [fieldOutcome, hfetch]

theorem c5_witness :
    rowLookup (generateFakeData fkDefault dbUsers1 1 schC [] 0) "user_id"
      = some (Value.vstr "u0") := by
  have h := c5_auth_positional fkDefault dbUsers1 1 0 [] schC
    (.cons "user_id" (fkProp "auth.users") .nil) "user_id" (fkProp "auth.users")
    [Value.vstr "u0"] rfl rfl (by simp [PropList.toList]) (by simp [PropList.toList])
    rfl rfl rfl
  exact h.1 (by decide)

/-- **C8.** For a foreign-reference field whose target has zero rows
available at resolution time — the `auth.users` query returning no row
(including after a query error, which `fetchDataFromTable` turns into zero
rows, second conjunct), or the fixture store holding no (or an empty) entry
for the target — the field is omitted from the synthesized row, and
synthesis still completes (the row is produced, merely without the field). -/
theorem c8_zero_rows_field_omitted (fk : Faker) (db : ExtDB) (fuel index : Nat)
    (fdm : Store) (schema : Sch) (ps : PropList) (key : String) (p : Sch)
    (F : String)
    (htitle : schema.title.startsWith "auth." = false)
    (hprops : schema.properties = .props ps)
    (hnd : (ps.toList.map Prod.fst).Nodup)
    (hmem : (key, p) ∈ ps.toList)
    (hgen : p.isGenerated = false)
    (hft : p.foreignTable = F) (hF1 : F ≠ "")
    (hzero : (F = "auth.users" ∧ fetchDataFromTable db "auth.users" index = [])
      ∨ (F ≠ "auth.users" ∧ (jsGet fdm F = none ∨ jsGet fdm F = some []))) :
    rowLookup (generateFakeData fk db fuel schema fdm index) key = none
    ∧ ∀ (db2 : ExtDB) (tbl : String) (i : Nat), db2 tbl = .err →
        fetchDataFromTable db2 tbl i = [] := by
  constructor
  · have hlook := generateFakeData_lookup fk db fuel index fdm schema ps key p
      htitle hprops hnd hmem
    rw [hlook]
    cases p with
    | mk t e f ty it pr ft g =>
      simp only [Sch.isGenerated] at hgen
      simp only [Sch.foreignTable] at hft
      subst hgen
      subst hft
      rcases hzero with ⟨hau, hfetch⟩ | ⟨hau, hcase⟩
      · simp [fieldOutcome, hF1, hau, hfetch]
      · rcases hcase with hnone | hempty
        · simp [fieldOutcome, hF1, hau, hnone]
        · simp [fieldOutcome, hF1, hau, hempty]
  · intro db2 tbl i h
    unfold fetchDataFromTable
    rw [h]

theorem c8_witness :
    rowLookup (generateFakeData fkDefault dbErr 1 schC [] 0) "user_id" = none := by
  have h := c8_zero_rows_field_omitted fkDefault dbErr 1 0 [] schC
    (.cons "user_id" (fkProp "auth.users") .nil) "user_id" (fkProp "auth.users")
    "auth.users" rfl rfl (by simp [PropList.toList]) (by simp [PropList.toList])
    rfl rfl (by decide) (Or.inl ⟨rfl, rfl⟩)
  exact h.1

/-- **C9.** A property matching no generation variant (no enum, no `uuid` or
`date-time` format, type none of string/number/integer/boolean, not an array
with items, not an object with properties, no foreign reference) is bound in
the synthesized row to the explicit value `null`: the field is present, not
omitted, and its key therefore appears among the columns supplied on
insert. -/
theorem c9_null_fallback (fk : Faker) (db : ExtDB) (fuel index : Nat)
    (fdm : Store) (schema : Sch) (ps : PropList) (key : String) (p : Sch)
    (htitle : schema.title.startsWith "auth." = false)
    (hprops : schema.properties = .props ps)
    (hnd : (ps.toList.map Prod.fst).Nodup)
    (hmem : (key, p) ∈ ps.toList)
    (hgen : p.isGenerated = false) (hft : p.foreignTable = "")
    (henum : p.enum = none)
    (hf1 : p.format ≠ "uuid") (hf2 : p.format ≠ "date-time")
    (ht1 : p.ptype ≠ "string") (ht2 : p.ptype ≠ "number")
    (ht3 : p.ptype ≠ "integer") (ht4 : p.ptype ≠ "boolean")
    (harr : ¬ (p.ptype = "array" ∧ p.items.present = true))
    (hobj : ¬ (p.ptype = "object" ∧ p.properties.present = true)) :
    rowLookup (generateFakeData fk db (fuel + 1) schema fdm index) key
      = some Value.vnull
    ∧ key ∈ insertColumns (generateFakeData fk db (fuel + 1) schema fdm index) := by
  have hlook := generateFakeData_lookup fk db (fuel + 1) index fdm schema ps key p
    htitle hprops hnd hmem
  have hdef := generatePropertyData_default fk db fdm fuel index p henum hf1 hf2
    ht1 ht2 ht3 ht4 harr hobj
  have hval : fieldOutcome (generatePropertyData fk db fdm (fuel + 1) index)
      db fdm index p = some Value.vnull := by
    cases p with
    | mk t e f ty it pr ft g =>
      simp only [Sch.isGenerated] at hgen
      simp only [Sch.foreignTable] at hft
      subst hgen
      subst hft
      simp [fieldOutcome, hdef]
  have hrow : rowLookup (generateFakeData fk db (fuel + 1) schema fdm index) key
      = some Value.vnull := by rw [hlook, hval]
  exact ⟨hrow, rowLookup_mem_insertColumns _ key Value.vnull hrow⟩

theorem c9_witness :
    rowLookup (generateFakeData fkDefault dbErr 1 schW [] 0) "weird"
      = some Value.vnull
    ∧ "weird" ∈ insertColumns (generateFakeData fkDefault dbErr 1 schW [] 0) :=
  c9_null_fallback fkDefault dbErr 0 0 [] schW (.cons "weird" blankProp .nil)
    "weird" blankProp rfl rfl (by simp [PropList.toList]) (by simp [PropList.toList])
    rfl rfl rfl (by decide) (by decide) (by decide) (by decide) (by decide)
    (by decide) (by decide) (by decide)

/-- **C6 (the code, contradicting the claim).** On the two-table input where
`B` references `A` (second conjunct: the derived edge `A → B` exists), the
run sorts to `[A, B]` and `cleanDatabase` receives and purges the tables in
exactly that *forward* topological order — the parent `A` is purged before
the child `B`, not after it as the claim's reverse dependency order
requires. -/
theorem c6_purge_forward_order :
    (mainModel fkDefault dbErr (fun _ => true) (fun _ _ => true) 1 exDag).map
        (fun r => (r.order, r.purged)) = Except.ok (["A", "B"], ["A", "B"])
    ∧ "B" ∈ adjOf exDag "A" := ⟨rfl, by decide⟩

/-- **C7 (amended).** In generateFakeData.ts, every record of every table is
attempted exactly once, in order, whatever the insert outcomes are: each
insert has its own `try`/`catch`, so one failure never aborts the remaining
records or tables.  (In verify.ts the same loop has a single outer `catch`
and the first failure aborts the rest — see `c7_counterexample`.) -/
theorem c7_insert_attempts_all (insOk : String → Value → Bool) (fdm : Store) :
    (insertFakeData insOk fdm).map (fun x => (x.1, x.2.1)) = allAttempts fdm := by
  induction fdm with
  | nil => rfl
  | cons tr rest ih =>
      obtain ⟨t2, rows⟩ := tr
      simp [insertFakeData, allAttempts, ih]

/-- **C7 (counterexample).** In verify.ts's `insertFakeData`, when the first
record of table `t` fails, the second record is never attempted: the claim
that processing continues with all subsequent records fails on that copy of
the code. -/
theorem c7_counterexample :
    insertFakeDataVerify insFailX [("t", [rowX, rowY])] = ([("t", rowX)], true)
    ∧ ("t", rowY) ∉ (insertFakeDataVerify insFailX [("t", [rowX, rowY])]).1 := by
  refine ⟨rfl, ?_⟩
  intro hc
  have hc2 : ("t", rowY) ∈ [("t", rowX)] := hc
  simp [rowX, rowY] at hc2

/-- **C10.** When a delete fails during the purge, `cleanDatabase` stops:
the purged tables are exactly the eligible tables before the failing one,
every table after it stays un-purged, the error is only recorded, and the
run still proceeds — the rest of `mainModel` (generation and insertion) does
not depend on the delete oracle at all. -/
theorem c10_purge_abort (delOk : String → Bool) (pre post : List String)
    (t : String)
    (hpre : ∀ x ∈ pre, purgeEligible x = true → delOk x = true)
    (ht : purgeEligible t = true) (hfail : delOk t = false) :
    cleanDatabase delOk (pre ++ t :: post) = (pre.filter purgeEligible, true)
    ∧ (∀ x ∈ post, x ∉ pre → x ∉ (cleanDatabase delOk (pre ++ t :: post)).1)
    ∧ ∀ (fk : Faker) (db : ExtDB) (insOk : String → Value → Bool) (fuel : Nat)
        (schemas : List Sch) (delOk2 : String → Bool),
        (mainModel fk db delOk insOk fuel schemas).map
            (fun r => (r.order, r.fixtures, r.inserts))
          = (mainModel fk db delOk2 insOk fuel schemas).map
            (fun r => (r.order, r.fixtures, r.inserts)) := by
  have hmain : ∀ pre2 : List String,
      (∀ x ∈ pre2, purgeEligible x = true → delOk x = true) →
      cleanDatabase delOk (pre2 ++ t :: post) = (pre2.filter purgeEligible, true) := by
    intro pre2
    induction pre2 with
    | nil =>
        intro _
        simp only [List.nil_append, cleanDatabase, ht, if_true]
        rw [if_neg (by simp [hfail])]
        simp
    | cons a pre2 ih =>
        intro hpre2
        have hih := ih (fun x hx => hpre2 x (List.mem_cons_of_mem _ hx))
        simp only [List.cons_append, cleanDatabase, List.append_eq]
        by_cases ha : purgeEligible a = true
        · rw [if_pos ha, if_pos (hpre2 a (List.mem_cons_self _ _) ha), hih]
          simp [List.filter_cons, ha]
        · rw [if_neg ha, hih]
          simp [List.filter_cons, ha]
  have h1 := hmain pre hpre
  refine ⟨h1, ?_, ?_⟩
  · intro x hxpost hxpre hc
    rw [h1] at hc
    exact hxpre (List.mem_of_mem_filter hc)
  · intro fk db insOk fuel schemas delOk2
    rcases hsort : topologicalSort schemas with e | sorted
    · simp [mainModel, hsort]
    · simp [mainModel, hsort, Except.map]

theorem c10_witness :
    cleanDatabase delOkW ["Ta", "Tf", "Tb"] = (["Ta"], true) := by
  have h := c10_purge_abort delOkW ["Ta"] ["Tb"] "Tf"
    (by decide) (by decide) (by decide)
  exact h.1
